import Mathlib

/-!
Verification of the timeline-scheduling and overlay-composition core of the
Automatic-Reel-Generation repository, shallowly embedded over ℚ.

Sources embedded:
* `processors/video_cutter.py` — segment planning (deltas, filler, fallback, cursor wraparound);
* `processors/image_overlay.py` — overlay window scheduling and slide-animation position curves;
* `processors/text_overlay.py` — caption font-size and background-box layout;
* `processors/audio_analyzer.py` — hybrid beat/vocal merge;
* `main.py` — cut-point decimation (`cut_points[::interval]`).
-/

namespace ReelGen

/-- Python `int(x)`: truncation toward zero. -/
def pyInt (q : ℚ) : ℤ := if 0 ≤ q then ⌊q⌋ else ⌈q⌉

/-- Real-valued remainder `a - b * ⌊a / b⌋`, used to state the spec's
`sourceStart[i+1] == (sourceStart[i] + duration[i]) mod sourceDuration` formula over ℚ. -/
def ratMod (a b : ℚ) : ℚ := a - b * ⌊a / b⌋

/-! ## SegmentPlanner (`processors/video_cutter.py`) -/

/-- `config.MIN_SEGMENT_DURATION = 0.3` (config.py). -/
def MIN_SEGMENT_DURATION : ℚ := 3/10

/-- Consecutive cut-point deltas `timestamps[i+1] - timestamps[i]`
(video_cutter.py, `create_segments_from_timestamps` loop over `range(len(timestamps) - 1)`). -/
def cutDeltas : List ℚ → List ℚ
  | t1 :: t2 :: rest => (t2 - t1) :: cutDeltas (t2 :: rest)
  | _ => []

/-- Candidate segment durations: each consecutive delta is kept only when strictly greater
than `MIN_SEGMENT_DURATION` (video_cutter.py: `if duration > config.MIN_SEGMENT_DURATION`). -/
def candidateDurations : List ℚ → List ℚ
  | t1 :: t2 :: rest =>
      if MIN_SEGMENT_DURATION < t2 - t1 then (t2 - t1) :: candidateDurations (t2 :: rest)
      else candidateDurations (t2 :: rest)
  | _ => []

/-- Planned segment durations (video_cutter.py lines 110-127): the filtered deltas, plus one
filler segment when the candidates sum short of the audio duration by more than
`MIN_SEGMENT_DURATION`; a single `min(audio_duration, video_duration)` segment when no
candidate survives. -/
def segmentDurations (timestamps : List ℚ) (audioDuration videoDuration : ℚ) : List ℚ :=
  let cand := candidateDurations timestamps
  if cand.isEmpty then [min audioDuration videoDuration]
  else
    let total := cand.sum
    if total < audioDuration then
      if MIN_SEGMENT_DURATION < audioDuration - total then cand ++ [audioDuration - total]
      else cand
    else cand

/-- Segment ordering mode (`'sequential'` or `'random'`). -/
inductive SegOrder
  | sequential
  | random

/-- Sequential start-offset assignment (video_cutter.py lines 130-152): reset the cursor to 0
when `cursor + duration` would exceed the source duration, emit the segment, then advance the
cursor by the duration. -/
def assignSequential (videoDuration : ℚ) : ℚ → List ℚ → List (ℚ × ℚ)
  | _, [] => []
  | cursor, d :: ds =>
      ((if videoDuration < cursor + d then 0 else cursor), d) ::
        assignSequential videoDuration ((if videoDuration < cursor + d then 0 else cursor) + d) ds

/-- Random start-offset assignment (video_cutter.py lines 130-156): the same wraparound check,
but the cursor for the next segment is an external draw from
`random.uniform(0, max(0, videoDuration - d))`; the draws are supplied as a list (0 when
exhausted). -/
def assignRandom (videoDuration : ℚ) : ℚ → List ℚ → List ℚ → List (ℚ × ℚ)
  | _, [], _ => []
  | cursor, d :: ds, draws =>
      ((if videoDuration < cursor + d then 0 else cursor), d) ::
        assignRandom videoDuration (draws.headD 0) ds draws.tail

/-- `VideoCutter.create_segments_from_timestamps`, planning part: the ordered list of
`(sourceStart, duration)` pairs (materializing each excerpt is an external side effect). -/
def createSegments (videoDuration : ℚ) (timestamps : List ℚ) (audioDuration : ℚ) :
    SegOrder → List ℚ → List (ℚ × ℚ)
  | .sequential, _ =>
      assignSequential videoDuration 0 (segmentDurations timestamps audioDuration videoDuration)
  | .random, draws =>
      assignRandom videoDuration 0 (segmentDurations timestamps audioDuration videoDuration) draws

/-- Sequential-mode plan, the subject of the spec's cursor-advance formula. -/
def seqSegments (videoDuration : ℚ) (timestamps : List ℚ) (audioDuration : ℚ) : List (ℚ × ℚ) :=
  createSegments videoDuration timestamps audioDuration .sequential []

/-- The spec's Segment invariant: `sourceStart ≥ 0`, `duration > 0`,
`sourceStart + duration ≤ sourceVideoDuration`. -/
def SegInvariant (videoDuration : ℚ) (seg : ℚ × ℚ) : Prop :=
  0 ≤ seg.1 ∧ 0 < seg.2 ∧ seg.1 + seg.2 ≤ videoDuration

theorem min_segment_duration_pos : (0 : ℚ) < MIN_SEGMENT_DURATION := by
  norm_num [MIN_SEGMENT_DURATION]

theorem candidateDurations_gt_min {ts : List ℚ} {d : ℚ}
    (hd : d ∈ candidateDurations ts) : MIN_SEGMENT_DURATION < d := by
  induction ts with
  | nil => simp [candidateDurations] at hd
  | cons t1 rest ih =>
    cases rest with
    | nil => simp [candidateDurations] at hd
    | cons t2 rest2 =>
      rw [candidateDurations] at hd
      by_cases h : MIN_SEGMENT_DURATION < t2 - t1
      · rw [if_pos h] at hd
        rcases List.mem_cons.mp hd with rfl | hd
        · exact h
        · exact ih hd
      · rw [if_neg h] at hd
        exact ih hd

theorem segmentDurations_pos {ts : List ℚ} {audio D : ℚ} (hA : 0 < audio) (hD : 0 < D) :
    ∀ d ∈ segmentDurations ts audio D, 0 < d := by
  intro d hd
  unfold segmentDurations at hd
  by_cases hne : (candidateDurations ts).isEmpty
  · rw [if_pos hne] at hd
    simp only [List.mem_singleton] at hd
    subst hd
    exact lt_min hA hD
  · rw [if_neg hne] at hd
    simp only at hd
    have hcand : ∀ x ∈ candidateDurations ts, (0 : ℚ) < x := fun x hx =>
      lt_trans min_segment_duration_pos (candidateDurations_gt_min hx)
    by_cases h1 : (candidateDurations ts).sum < audio
    · rw [if_pos h1] at hd
      by_cases h2 : MIN_SEGMENT_DURATION < audio - (candidateDurations ts).sum
      · rw [if_pos h2] at hd
        rcases List.mem_append.mp hd with hmem | hmem
        · exact hcand d hmem
        · simp only [List.mem_singleton] at hmem
          subst hmem
          linarith [min_segment_duration_pos]
      · rw [if_neg h2] at hd
        exact hcand d hd
    · rw [if_neg h1] at hd
      exact hcand d hd

theorem assignSequential_invariant (D : ℚ) (durs : List ℚ) (cursor : ℚ)
    (hcursor : 0 ≤ cursor) (hdur : ∀ d ∈ durs, 0 < d ∧ d ≤ D) :
    ∀ seg ∈ assignSequential D cursor durs, SegInvariant D seg := by
  induction durs generalizing cursor with
  | nil => simp [assignSequential]
  | cons d ds ih =>
    intro seg hseg
    rw [assignSequential] at hseg
    obtain ⟨hd0, hdD⟩ := hdur d (List.mem_cons_self d ds)
    rcases List.mem_cons.mp hseg with rfl | hseg
    · by_cases h : D < cursor + d
      · exact ⟨by simp [if_pos h], hd0, by simp [if_pos h, hdD]⟩
      · exact ⟨by simp [if_neg h, hcursor], hd0, by simpa [if_neg h] using le_of_not_lt h⟩
    · refine ih _ ?_ (fun x hx => hdur x (List.mem_cons_of_mem d hx)) seg hseg
      by_cases h : D < cursor + d
      · simp only [if_pos h]
        linarith
      · simp only [if_neg h]
        linarith

theorem assignRandom_invariant (D : ℚ) (durs : List ℚ) (draws : List ℚ) (cursor : ℚ)
    (hcursor : 0 ≤ cursor) (hdur : ∀ d ∈ durs, 0 < d ∧ d ≤ D)
    (hdraws : ∀ r ∈ draws, 0 ≤ r) :
    ∀ seg ∈ assignRandom D cursor durs draws, SegInvariant D seg := by
  induction durs generalizing cursor draws with
  | nil => simp [assignRandom]
  | cons d ds ih =>
    intro seg hseg
    rw [assignRandom] at hseg
    obtain ⟨hd0, hdD⟩ := hdur d (List.mem_cons_self d ds)
    rcases List.mem_cons.mp hseg with rfl | hseg
    · by_cases h : D < cursor + d
      · exact ⟨by simp [if_pos h], hd0, by simp [if_pos h, hdD]⟩
      · exact ⟨by simp [if_neg h, hcursor], hd0, by simpa [if_neg h] using le_of_not_lt h⟩
    · refine ih _ _ ?_ (fun x hx => hdur x (List.mem_cons_of_mem d hx))
        (fun r hr => hdraws r (List.mem_of_mem_tail hr)) seg hseg
      cases draws with
      | nil => simp
      | cons r rs => exact hdraws r (List.mem_cons_self r rs)

/-- Claim C1 (amended): every emitted segment satisfies the invariant `sourceStart ≥ 0`,
`duration > 0`, `sourceStart + duration ≤ sourceVideoDuration` — in either ordering mode —
provided the target audio duration is positive, every planned duration is at most the source
duration, and (random mode) the drawn offsets are nonnegative. The wraparound alone is not
sufficient when a planned duration exceeds the source duration (see the counterexample). -/
theorem C1_segment_invariant (D audio : ℚ) (ts : List ℚ) (ord : SegOrder) (draws : List ℚ)
    (hD : 0 < D) (hA : 0 < audio)
    (hdur : ∀ d ∈ segmentDurations ts audio D, d ≤ D)
    (hdraws : ∀ r ∈ draws, 0 ≤ r) :
    ∀ seg ∈ createSegments D ts audio ord draws, SegInvariant D seg := by
  cases ord with
  | sequential =>
    exact assignSequential_invariant D _ 0 le_rfl
      (fun d hd => ⟨segmentDurations_pos hA hD d hd, hdur d hd⟩)
  | random =>
    exact assignRandom_invariant D _ draws 0 le_rfl
      (fun d hd => ⟨segmentDurations_pos hA hD d hd, hdur d hd⟩) hdraws

/-- Witness for C1 at a concrete input: source duration 10, cut points [0, 1, 2], audio 2. -/
theorem C1_segment_invariant_witness :
    ((0:ℚ) < 10 ∧ (0:ℚ) < 2 ∧ (∀ d ∈ segmentDurations [0, 1, 2] 2 10, d ≤ 10)) ∧
      ∀ seg ∈ createSegments 10 [0, 1, 2] 2 .sequential [], SegInvariant 10 seg :=
  ⟨⟨by norm_num, by norm_num,
    by norm_num [segmentDurations, candidateDurations, MIN_SEGMENT_DURATION]⟩,
   C1_segment_invariant 10 2 [0, 1, 2] .sequential [] (by norm_num) (by norm_num)
     (by norm_num [segmentDurations, candidateDurations, MIN_SEGMENT_DURATION])
     (by simp)⟩

/-- Counterexample to C1 as stated: with source duration 10 and cut points [0, 20], the single
delta 20 survives the filter, the wraparound resets the cursor to 0, and the emitted segment
(0, 20) still violates `sourceStart + duration ≤ sourceVideoDuration`. -/
theorem C1_counterexample :
    createSegments 10 [0, 20] 5 .sequential [] = [(0, 20)] ∧
      ¬ SegInvariant 10 ((0 : ℚ), (20 : ℚ)) := by
  constructor
  · norm_num [createSegments, segmentDurations, candidateDurations, assignSequential,
      MIN_SEGMENT_DURATION]
  · norm_num [SegInvariant]

theorem assignSequential_consec (D : ℚ) (durs : List ℚ) (cursor : ℚ) (i : ℕ)
    (h : i + 1 < (assignSequential D cursor durs).length) :
    ((assignSequential D cursor durs).getD (i + 1) (0, 0)).1 =
      if D < ((assignSequential D cursor durs).getD i (0, 0)).1
             + ((assignSequential D cursor durs).getD i (0, 0)).2
             + ((assignSequential D cursor durs).getD (i + 1) (0, 0)).2
      then 0
      else ((assignSequential D cursor durs).getD i (0, 0)).1
           + ((assignSequential D cursor durs).getD i (0, 0)).2 := by
  induction durs generalizing cursor i with
  | nil => simp [assignSequential] at h
  | cons d ds ih =>
    cases ds with
    | nil => simp [assignSequential] at h
    | cons d2 ds2 =>
      cases i with
      | zero =>
        rw [assignSequential, assignSequential]
        simp only [List.getD_cons_zero, List.getD_cons_succ]
      | succ j =>
        have h2 : j + 1 <
            (assignSequential D ((if D < cursor + d then 0 else cursor) + d) (d2 :: ds2)).length := by
          rw [assignSequential] at h
          simp only [List.length_cons] at h
          omega
        rw [assignSequential]
        simp only [List.getD_cons_succ]
        exact ih _ j h2

/-- Claim C3 (amended): in sequential ordering the cursor advances by the previous duration,
except that it resets to 0 exactly when the advanced cursor plus the NEXT segment's duration
would exceed the source duration: `sourceStart[i+1] = if sourceStart[i] + duration[i] +
duration[i+1] > sourceDuration then 0 else sourceStart[i] + duration[i]`. This is not the
claimed `(sourceStart[i] + duration[i]) mod sourceDuration` (see the counterexample). -/
theorem C3_sequential_cursor (D audio : ℚ) (ts : List ℚ) (i : ℕ)
    (h : i + 1 < (seqSegments D ts audio).length) :
    ((seqSegments D ts audio).getD (i + 1) (0, 0)).1 =
      if D < ((seqSegments D ts audio).getD i (0, 0)).1
             + ((seqSegments D ts audio).getD i (0, 0)).2
             + ((seqSegments D ts audio).getD (i + 1) (0, 0)).2
      then 0
      else ((seqSegments D ts audio).getD i (0, 0)).1
           + ((seqSegments D ts audio).getD i (0, 0)).2 :=
  assignSequential_consec D (segmentDurations ts audio D) 0 i h

/-- Witness for C3 at a concrete input: source duration 10, cut points [0, 1, 2], audio 2,
consecutive pair at index 0. -/
theorem C3_sequential_cursor_witness :
    0 + 1 < (seqSegments 10 [0, 1, 2] 2).length ∧
      ((seqSegments 10 [0, 1, 2] 2).getD (0 + 1) (0, 0)).1 =
        if (10 : ℚ) < ((seqSegments 10 [0, 1, 2] 2).getD 0 (0, 0)).1
               + ((seqSegments 10 [0, 1, 2] 2).getD 0 (0, 0)).2
               + ((seqSegments 10 [0, 1, 2] 2).getD (0 + 1) (0, 0)).2
        then 0
        else ((seqSegments 10 [0, 1, 2] 2).getD 0 (0, 0)).1
             + ((seqSegments 10 [0, 1, 2] 2).getD 0 (0, 0)).2 :=
  ⟨by norm_num [seqSegments, createSegments, segmentDurations, candidateDurations,
      assignSequential, MIN_SEGMENT_DURATION],
   C3_sequential_cursor 10 2 [0, 1, 2] 0
     (by norm_num [seqSegments, createSegments, segmentDurations, candidateDurations,
        assignSequential, MIN_SEGMENT_DURATION])⟩

/-- Counterexample to C3 as stated: source duration 10, cut points [0, 7, 12], audio 12. The
planned durations are [7, 5]; the second segment starts at 0 (the cursor 7 plus duration 5
would exceed 10), but `(sourceStart[0] + duration[0]) mod 10 = 7 mod 10 = 7 ≠ 0`. -/
theorem C3_counterexample :
    seqSegments 10 [0, 7, 12] 12 = [(0, 7), (0, 5)] ∧
      ratMod (0 + 7) 10 = 7 ∧ ((0 : ℚ), (5 : ℚ)).1 ≠ ratMod (0 + 7) 10 := by
  refine ⟨?_, ?_, by norm_num [ratMod]⟩
  · norm_num [seqSegments, createSegments, segmentDurations, candidateDurations,
      assignSequential, MIN_SEGMENT_DURATION]
  · norm_num [ratMod]

theorem candidateDurations_eq_filter (ts : List ℚ) :
    candidateDurations ts = (cutDeltas ts).filter (fun d => decide (MIN_SEGMENT_DURATION < d)) := by
  induction ts with
  | nil => simp [candidateDurations, cutDeltas]
  | cons t1 rest ih =>
    cases rest with
    | nil => simp [candidateDurations, cutDeltas]
    | cons t2 rest2 =>
      rw [candidateDurations, cutDeltas]
      by_cases h : MIN_SEGMENT_DURATION < t2 - t1
      · simp [List.filter_cons, h, ih]
      · simp [List.filter_cons, h, ih]

/-- Claim C7 (amended): the planner keeps exactly the consecutive deltas STRICTLY greater than
`MIN_SEGMENT_DURATION` (a delta equal to the minimum is discarded, contrary to the claim), and
on the non-fallback path every emitted duration — kept delta or filler — is strictly greater
than `MIN_SEGMENT_DURATION`. -/
theorem C7_min_duration_filter (ts : List ℚ) (audio D : ℚ)
    (hne : candidateDurations ts ≠ []) :
    candidateDurations ts =
        (cutDeltas ts).filter (fun d => decide (MIN_SEGMENT_DURATION < d)) ∧
      ∀ d ∈ segmentDurations ts audio D, MIN_SEGMENT_DURATION < d := by
  refine ⟨candidateDurations_eq_filter ts, ?_⟩
  intro d hd
  unfold segmentDurations at hd
  rw [if_neg (by simpa [List.isEmpty_iff] using hne)] at hd
  simp only at hd
  by_cases h1 : (candidateDurations ts).sum < audio
  · rw [if_pos h1] at hd
    by_cases h2 : MIN_SEGMENT_DURATION < audio - (candidateDurations ts).sum
    · rw [if_pos h2] at hd
      rcases List.mem_append.mp hd with hmem | hmem
      · exact candidateDurations_gt_min hmem
      · simp only [List.mem_singleton] at hmem
        subst hmem
        exact h2
    · rw [if_neg h2] at hd
      exact candidateDurations_gt_min hd
  · rw [if_neg h1] at hd
    exact candidateDurations_gt_min hd

/-- Witness for C7 at a concrete input: cut points [0, 1], audio 1, source duration 10. -/
theorem C7_min_duration_filter_witness :
    candidateDurations [0, 1] ≠ [] ∧
      (candidateDurations [0, 1] =
          (cutDeltas [0, 1]).filter (fun d => decide (MIN_SEGMENT_DURATION < d)) ∧
        ∀ d ∈ segmentDurations [0, 1] 1 10, MIN_SEGMENT_DURATION < d) :=
  ⟨by norm_num [candidateDurations, MIN_SEGMENT_DURATION],
   C7_min_duration_filter [0, 1] 1 10
     (by norm_num [candidateDurations, MIN_SEGMENT_DURATION])⟩

/-- Counterexample to C7 as stated: a delta exactly equal to `MIN_SEGMENT_DURATION` (0.3) is
not "shorter than" the minimum, yet the planner discards it — the candidate list for cut
points [0, 0.3] is empty (the code keeps only `duration > MIN_SEGMENT_DURATION`). -/
theorem C7_counterexample :
    candidateDurations [0, 3/10] = [] ∧ ¬ ((3 : ℚ)/10 - 0 < MIN_SEGMENT_DURATION) := by
  norm_num [candidateDurations, MIN_SEGMENT_DURATION]

/-! ## CutPointSource decimation (`main.py`, `cut_points[::interval]`) -/

/-- Python extended slice `l[::k]` for a positive step `k`: take the head, skip `k - 1`
elements, repeat. -/
def sliceStep {α : Type} (l : List α) (k : ℕ) : List α :=
  match l with
  | [] => []
  | x :: xs => x :: sliceStep (xs.drop (k - 1)) k
termination_by l.length
decreasing_by
  simp only [List.length_cons, List.length_drop]
  omega

/-- Reference definition from the spec: the decimated output is
`[points[0], points[I], points[2*I], ...]` — the elements whose index is a multiple of the
interval, in order. -/
def decimateSpec {α : Type} (l : List α) (k : ℕ) : List α :=
  (List.range l.length).filterMap (fun i => if i % k = 0 then l[i]? else none)

theorem decimateSpec_shift {α : Type} (k : ℕ) (_hk : 1 ≤ k) :
    ∀ (m : ℕ), m < k → ∀ (xs : List α),
      (List.range xs.length).filterMap
          (fun i => if (i + (k - m)) % k = 0 then xs[i]? else none)
        = decimateSpec (xs.drop m) k := by
  intro m
  induction m with
  | zero =>
    intro _ xs
    simp only [Nat.sub_zero, List.drop_zero, decimateSpec]
    congr 1
    funext i
    simp only [Nat.add_mod_right]
  | succ m ih =>
    intro hm xs
    cases xs with
    | nil => simp [decimateSpec]
    | cons y ys =>
      rw [List.length_cons, List.range_succ_eq_map, List.filterMap_cons, List.filterMap_map]
      have hhead : ((0 + (k - (m + 1))) % k = 0) = False := by
        simp only [Nat.zero_add, eq_iff_iff, iff_false]
        intro hcontra
        have h1 : 1 ≤ k - (m + 1) := by omega
        have h2 : k - (m + 1) < k := by omega
        rw [Nat.mod_eq_of_lt h2] at hcontra
        omega
      simp only [hhead, if_false]
      have hfun : (fun i => if (i + (k - (m + 1))) % k = 0 then (y :: ys)[i]? else none) ∘
            Nat.succ
          = fun i => if (i + (k - m)) % k = 0 then ys[i]? else none := by
        funext i
        simp only [Function.comp_apply, Nat.succ_eq_add_one, List.getElem?_cons_succ]
        have h1 : i + 1 + (k - (m + 1)) = i + (k - m) := by omega
        simp only [h1]
      rw [hfun, ih (by omega) ys, List.drop_succ_cons]

theorem decimateSpec_cons {α : Type} (k : ℕ) (hk : 1 ≤ k) (x : α) (xs : List α) :
    decimateSpec (x :: xs) k = x :: decimateSpec (xs.drop (k - 1)) k := by
  have hfun : (fun i => if i % k = 0 then (x :: xs)[i]? else none) ∘ Nat.succ
      = fun i => if (i + (k - (k - 1))) % k = 0 then xs[i]? else none := by
    funext i
    simp only [Function.comp_apply, Nat.succ_eq_add_one, List.getElem?_cons_succ]
    have h1 : i + (k - (k - 1)) = i + 1 := by omega
    simp only [h1]
  rw [decimateSpec, List.length_cons, List.range_succ_eq_map, List.filterMap_cons,
    List.filterMap_map, hfun, decimateSpec_shift k hk (k - 1) (by omega) xs]
  simp

/-- Claim C9: for every interval `I ≥ 1`, the Python stride slice `cut_points[::I]` equals the
stride-sampled subsequence `[points[0], points[I], points[2*I], ...]`. -/
theorem C9_decimation (l : List ℚ) (k : ℕ) (hk : 1 ≤ k) : sliceStep l k = decimateSpec l k := by
  suffices h : ∀ (n : ℕ) (l : List ℚ), l.length ≤ n → sliceStep l k = decimateSpec l k by
    exact h l.length l le_rfl
  intro n
  induction n with
  | zero =>
    intro l hl
    rw [List.length_eq_zero.mp (Nat.le_zero.mp hl)]
    simp [sliceStep, decimateSpec]
  | succ n ih =>
    intro l hl
    cases l with
    | nil => simp [sliceStep, decimateSpec]
    | cons x xs =>
      rw [sliceStep, decimateSpec_cons k hk]
      congr 1
      apply ih
      simp only [List.length_drop]
      simp only [List.length_cons] at hl
      omega

/-- Witness for C9 at a concrete input: the spec's own scenario, `[0,1,2,3,4,5]` with
interval 2. -/
theorem C9_decimation_witness :
    1 ≤ 2 ∧ sliceStep [(0 : ℚ), 1, 2, 3, 4, 5] 2 = decimateSpec [(0 : ℚ), 1, 2, 3, 4, 5] 2 :=
  ⟨by norm_num, C9_decimation [0, 1, 2, 3, 4, 5] 2 (by norm_num)⟩

/-! ## OverlayScheduler (`processors/image_overlay.py`, `_calculate_timing`) -/

/-- The timing dictionary returned by `_calculate_timing`. -/
structure TimingInfo where
  durationPerImage : ℚ
  startTimes : List ℚ
  endTimes : List ℚ
  numImages : ℕ
  totalDuration : ℚ
  delayBetweenImages : ℚ

/-- The effective delay after the auto-duration branch (image_overlay.py lines 190-198): the
delay is forced to 0 when the host duration minus the inter-image delays is not positive.
With an explicit per-image duration this branch is skipped and the delay passes through. -/
def autoDelay (numImages : ℕ) (videoDuration : ℚ) (delay : ℚ) : ℚ :=
  if videoDuration - (if 1 < numImages then delay * ((numImages - 1 : ℕ) : ℚ) else 0) ≤ 0
  then 0 else delay

/-- The available time used by the auto-duration branch (image_overlay.py lines 191-199). -/
def autoAvailable (numImages : ℕ) (videoDuration : ℚ) (delay : ℚ) : ℚ :=
  if videoDuration - (if 1 < numImages then delay * ((numImages - 1 : ℕ) : ℚ) else 0) ≤ 0
  then videoDuration
  else videoDuration - (if 1 < numImages then delay * ((numImages - 1 : ℕ) : ℚ) else 0)

/-- Resolution of (effective delay, per-image duration) (image_overlay.py lines 187-207): an
explicit duration passes both through; otherwise the duration is `available / numImages`,
floored at a minimum of 1.0 s. -/
def resolveTiming (numImages : ℕ) (videoDuration : ℚ) (durationPerImage : Option ℚ)
    (delay : ℚ) : ℚ × ℚ :=
  match durationPerImage with
  | some d => (delay, d)
  | none =>
      (autoDelay numImages videoDuration delay,
       if autoAvailable numImages videoDuration delay / (numImages : ℚ) < 1 then 1
       else autoAvailable numImages videoDuration delay / (numImages : ℚ))

/-- The window-building loop (image_overlay.py lines 210-221): each image gets the window
`[cursor, cursor + duration]` and the cursor then advances by duration plus delay. (The code
skips the delay after the last image, but that trailing cursor value is never used.) -/
def buildWindows (dpi delay : ℚ) : ℕ → ℚ → List (ℚ × ℚ)
  | 0, _ => []
  | n + 1, cursor => (cursor, cursor + dpi) :: buildWindows dpi delay n (cursor + dpi + delay)

/-- The naive (pre-rescale) windows of `_calculate_timing`. -/
def scheduleWindows (numImages : ℕ) (videoDuration : ℚ) (durationPerImage : Option ℚ)
    (delay : ℚ) : List (ℚ × ℚ) :=
  buildWindows (resolveTiming numImages videoDuration durationPerImage delay).2
    (resolveTiming numImages videoDuration durationPerImage delay).1 numImages 0

/-- The naive last end time, `end_times[-1]` before any rescaling. -/
def naiveLastEnd (numImages : ℕ) (videoDuration : ℚ) (durationPerImage : Option ℚ)
    (delay : ℚ) : ℚ :=
  ((scheduleWindows numImages videoDuration durationPerImage delay).getLastD (0, 0)).2

/-- `ImageOverlayProcessor._calculate_timing` (image_overlay.py lines 167-260). For zero images
the Python code raises inside the `try` block (ZeroDivisionError in the auto branch, IndexError
on `end_times[-1]` otherwise) and the handler returns None; rescaling by
`videoDuration / lastEnd` applies when the naive schedule overruns the host duration (a zero
`lastEnd` there would raise ZeroDivisionError, again surfacing as None). -/
def calculateTiming (numImages : ℕ) (videoDuration : ℚ) (durationPerImage : Option ℚ)
    (delay : ℚ) : Option TimingInfo :=
  if numImages = 0 then none
  else if videoDuration < naiveLastEnd numImages videoDuration durationPerImage delay then
    if naiveLastEnd numImages videoDuration durationPerImage delay = 0 then none
    else
      some ⟨(resolveTiming numImages videoDuration durationPerImage delay).2 *
          (videoDuration / naiveLastEnd numImages videoDuration durationPerImage delay),
        (scheduleWindows numImages videoDuration durationPerImage delay).map
          (fun w => w.1 * (videoDuration / naiveLastEnd numImages videoDuration durationPerImage delay)),
        (scheduleWindows numImages videoDuration durationPerImage delay).map
          (fun w => w.2 * (videoDuration / naiveLastEnd numImages videoDuration durationPerImage delay)),
        numImages, videoDuration,
        (resolveTiming numImages videoDuration durationPerImage delay).1⟩
  else
    some ⟨(resolveTiming numImages videoDuration durationPerImage delay).2,
      (scheduleWindows numImages videoDuration durationPerImage delay).map Prod.fst,
      (scheduleWindows numImages videoDuration durationPerImage delay).map Prod.snd,
      numImages, naiveLastEnd numImages videoDuration durationPerImage delay,
      (resolveTiming numImages videoDuration durationPerImage delay).1⟩

/-- The spec's OverlayItem window invariants over a timing result. -/
def WindowsValid (hostDuration : ℚ) (info : TimingInfo) : Prop :=
  info.startTimes.length = info.numImages ∧
  info.endTimes.length = info.numImages ∧
  (∀ i, i < info.numImages →
    0 ≤ info.startTimes.getD i 0 ∧ info.startTimes.getD i 0 < info.endTimes.getD i 0) ∧
  (∀ i, i + 1 < info.numImages → info.endTimes.getD i 0 ≤ info.startTimes.getD (i + 1) 0) ∧
  info.endTimes.getLastD 0 ≤ hostDuration

theorem buildWindows_length (dpi delay : ℚ) (n : ℕ) (cursor : ℚ) :
    (buildWindows dpi delay n cursor).length = n := by
  induction n generalizing cursor with
  | zero => rfl
  | succ n ih => simp [buildWindows, ih]

theorem buildWindows_getD (dpi delay : ℚ) (n : ℕ) (cursor : ℚ) (i : ℕ) (h : i < n) :
    (buildWindows dpi delay n cursor).getD i (0, 0)
      = (cursor + (i : ℚ) * (dpi + delay), cursor + (i : ℚ) * (dpi + delay) + dpi) := by
  induction n generalizing cursor i with
  | zero => omega
  | succ n ih =>
    cases i with
    | zero => simp [buildWindows]
    | succ j =>
      rw [buildWindows, List.getD_cons_succ, ih (cursor + dpi + delay) j (by omega)]
      simp only [Prod.mk.injEq]
      constructor <;> (push_cast; ring)

theorem buildWindows_getLastD (dpi delay : ℚ) (n : ℕ) (h : 1 ≤ n) (cursor : ℚ) :
    ((buildWindows dpi delay n cursor).getLastD (0, 0)).2
      = cursor + ((n - 1 : ℕ) : ℚ) * (dpi + delay) + dpi := by
  have hlen := buildWindows_length dpi delay n cursor
  rw [List.getLastD_eq_getLast?, List.getLast?_eq_getElem?, ← List.getD_eq_getElem?_getD, hlen,
    buildWindows_getD dpi delay n cursor (n - 1) (by omega)]

theorem getD_map (g : ℚ × ℚ → ℚ) (ws : List (ℚ × ℚ)) (i : ℕ) (h : i < ws.length) :
    (ws.map g).getD i 0 = g (ws.getD i (0, 0)) := by
  induction ws generalizing i with
  | nil => simp at h
  | cons w rest ih =>
    cases i with
    | zero => simp
    | succ j =>
      simp only [List.map_cons, List.getD_cons_succ]
      exact ih j (by simpa using h)

theorem getLastD_map (g : ℚ × ℚ → ℚ) (ws : List (ℚ × ℚ)) (h : ws ≠ []) :
    (ws.map g).getLastD 0 = g (ws.getLastD (0, 0)) := by
  have hpos : 0 < ws.length := List.length_pos.mpr h
  rw [List.getLastD_eq_getLast?, List.getLast?_eq_getElem?, ← List.getD_eq_getElem?_getD,
    List.length_map, List.getLastD_eq_getLast?, List.getLast?_eq_getElem?,
    ← List.getD_eq_getElem?_getD]
  exact getD_map g ws (ws.length - 1) (by omega)

theorem resolveTiming_delay_nonneg (n : ℕ) (video : ℚ) (dpiOpt : Option ℚ) (delay : ℚ)
    (hdelay : 0 ≤ delay) : 0 ≤ (resolveTiming n video dpiOpt delay).1 := by
  cases dpiOpt with
  | some d => simpa [resolveTiming] using hdelay
  | none =>
    simp only [resolveTiming, autoDelay]
    by_cases h : video - (if 1 < n then delay * ((n - 1 : ℕ) : ℚ) else 0) ≤ 0
    · rw [if_pos h]
    · rw [if_neg h]
      exact hdelay

theorem resolveTiming_dpi_pos (n : ℕ) (video : ℚ) (dpiOpt : Option ℚ) (delay : ℚ)
    (hn : 1 ≤ n) (hvideo : 0 < video)
    (hdpi : ∀ d, dpiOpt = some d → 0 < d) :
    0 < (resolveTiming n video dpiOpt delay).2 := by
  cases dpiOpt with
  | some d => simpa [resolveTiming] using hdpi d rfl
  | none =>
    have havail : 0 < autoAvailable n video delay := by
      unfold autoAvailable
      by_cases h : video - (if 1 < n then delay * ((n - 1 : ℕ) : ℚ) else 0) ≤ 0
      · rw [if_pos h]
        exact hvideo
      · rw [if_neg h]
        exact lt_of_not_le h
    have hcast : (0 : ℚ) < (n : ℚ) := by
      exact_mod_cast Nat.lt_of_lt_of_le Nat.zero_lt_one hn
    simp only [resolveTiming]
    split
    · norm_num
    · positivity

/-- Claim C2: for every itemCount ≥ 1, host duration > 0, delay ≥ 0, and per-item duration
either auto-computed or explicitly positive, the scheduler returns a window list with
`0 ≤ start[i] < end[i]`, `end[i] ≤ start[i+1]`, and `end[last] ≤ hostDuration`; and whenever
the naive last end exceeded the host duration (so rescaling by `hostDuration / lastEnd`
applied), the rescaled last end equals the host duration exactly (the ℚ model's rendering of
"within floating tolerance"). -/
theorem C2_overlay_windows (n : ℕ) (video : ℚ) (dpiOpt : Option ℚ) (delay : ℚ)
    (hn : 1 ≤ n) (hvideo : 0 < video) (hdelay : 0 ≤ delay)
    (hdpi : ∀ d, dpiOpt = some d → 0 < d) :
    ∃ info, calculateTiming n video dpiOpt delay = some info ∧ WindowsValid video info ∧
      (video < naiveLastEnd n video dpiOpt delay → info.endTimes.getLastD 0 = video) := by
  have hΔ0 : 0 ≤ (resolveTiming n video dpiOpt delay).1 :=
    resolveTiming_delay_nonneg n video dpiOpt delay hdelay
  have hP0 : 0 < (resolveTiming n video dpiOpt delay).2 :=
    resolveTiming_dpi_pos n video dpiOpt delay hn hvideo hdpi
  set Δ := (resolveTiming n video dpiOpt delay).1 with hΔdef
  set P := (resolveTiming n video dpiOpt delay).2 with hPdef
  have hwslen : (scheduleWindows n video dpiOpt delay).length = n :=
    buildWindows_length P Δ n 0
  have hwsne : scheduleWindows n video dpiOpt delay ≠ [] := by
    intro hc
    rw [hc] at hwslen
    simp only [List.length_nil] at hwslen
    omega
  have hgetD : ∀ i, i < n → (scheduleWindows n video dpiOpt delay).getD i (0, 0)
      = ((i : ℚ) * (P + Δ), (i : ℚ) * (P + Δ) + P) := by
    intro i hi
    show (buildWindows P Δ n 0).getD i (0, 0) = _
    rw [buildWindows_getD P Δ n 0 i hi]
    simp only [Prod.mk.injEq]
    constructor <;> ring
  have hlast : naiveLastEnd n video dpiOpt delay = ((n - 1 : ℕ) : ℚ) * (P + Δ) + P := by
    show ((buildWindows P Δ n 0).getLastD (0, 0)).2 = _
    rw [buildWindows_getLastD P Δ n hn 0]
    ring
  have hlastpos : 0 < naiveLastEnd n video dpiOpt delay := by
    rw [hlast]
    have h1 : (0 : ℚ) ≤ ((n - 1 : ℕ) : ℚ) := Nat.cast_nonneg _
    nlinarith
  have hn0 : ¬ n = 0 := by omega
  rw [calculateTiming, if_neg hn0]
  by_cases hover : video < naiveLastEnd n video dpiOpt delay
  · have hLne : naiveLastEnd n video dpiOpt delay ≠ 0 := ne_of_gt hlastpos
    have hf : 0 < video / naiveLastEnd n video dpiOpt delay := div_pos hvideo hlastpos
    rw [if_pos hover, if_neg hLne]
    refine ⟨_, rfl, ⟨?_, ?_, ?_, ?_, ?_⟩, fun _ => ?_⟩
    · simpa using hwslen
    · simpa using hwslen
    · intro i hi
      have hi2 : i < n := hi
      have hilen : i < (scheduleWindows n video dpiOpt delay).length := by omega
      constructor
      · show 0 ≤ ((scheduleWindows n video dpiOpt delay).map
            (fun w => w.1 * (video / naiveLastEnd n video dpiOpt delay))).getD i 0
        rw [getD_map _ _ i hilen, hgetD i hi2]
        show (0 : ℚ) ≤ (i : ℚ) * (P + Δ) * (video / naiveLastEnd n video dpiOpt delay)
        have h1 : (0 : ℚ) ≤ (i : ℚ) * (P + Δ) :=
          mul_nonneg (Nat.cast_nonneg i) (by linarith)
        exact mul_nonneg h1 (le_of_lt hf)
      · show ((scheduleWindows n video dpiOpt delay).map
              (fun w => w.1 * (video / naiveLastEnd n video dpiOpt delay))).getD i 0
            < ((scheduleWindows n video dpiOpt delay).map
              (fun w => w.2 * (video / naiveLastEnd n video dpiOpt delay))).getD i 0
        rw [getD_map _ _ i hilen, getD_map _ _ i hilen, hgetD i hi2]
        show (i : ℚ) * (P + Δ) * (video / naiveLastEnd n video dpiOpt delay)
            < ((i : ℚ) * (P + Δ) + P) * (video / naiveLastEnd n video dpiOpt delay)
        exact mul_lt_mul_of_pos_right (by linarith) hf
    · intro i hi
      have hi2 : i + 1 < n := hi
      have hilen : i < (scheduleWindows n video dpiOpt delay).length := by omega
      have hilen2 : i + 1 < (scheduleWindows n video dpiOpt delay).length := by omega
      show ((scheduleWindows n video dpiOpt delay).map
            (fun w => w.2 * (video / naiveLastEnd n video dpiOpt delay))).getD i 0
          ≤ ((scheduleWindows n video dpiOpt delay).map
            (fun w => w.1 * (video / naiveLastEnd n video dpiOpt delay))).getD (i + 1) 0
      rw [getD_map _ _ i hilen, getD_map _ _ (i + 1) hilen2, hgetD i (by omega),
        hgetD (i + 1) (by omega)]
      show ((i : ℚ) * (P + Δ) + P) * (video / naiveLastEnd n video dpiOpt delay)
          ≤ ((i + 1 : ℕ) : ℚ) * (P + Δ) * (video / naiveLastEnd n video dpiOpt delay)
      refine mul_le_mul_of_nonneg_right ?_ (le_of_lt hf)
      push_cast
      nlinarith
    · show ((scheduleWindows n video dpiOpt delay).map
          (fun w => w.2 * (video / naiveLastEnd n video dpiOpt delay))).getLastD 0 ≤ video
      rw [getLastD_map _ _ hwsne]
      show naiveLastEnd n video dpiOpt delay * (video / naiveLastEnd n video dpiOpt delay)
          ≤ video
      rw [mul_comm, div_mul_cancel₀ video hLne]
    · show ((scheduleWindows n video dpiOpt delay).map
          (fun w => w.2 * (video / naiveLastEnd n video dpiOpt delay))).getLastD 0 = video
      rw [getLastD_map _ _ hwsne]
      show naiveLastEnd n video dpiOpt delay * (video / naiveLastEnd n video dpiOpt delay)
          = video
      rw [mul_comm, div_mul_cancel₀ video hLne]
  · rw [if_neg hover]
    refine ⟨_, rfl, ⟨?_, ?_, ?_, ?_, ?_⟩, fun hcon => absurd hcon hover⟩
    · simpa using hwslen
    · simpa using hwslen
    · intro i hi
      have hi2 : i < n := hi
      have hilen : i < (scheduleWindows n video dpiOpt delay).length := by omega
      constructor
      · show 0 ≤ ((scheduleWindows n video dpiOpt delay).map Prod.fst).getD i 0
        rw [getD_map _ _ i hilen, hgetD i hi2]
        show (0 : ℚ) ≤ (i : ℚ) * (P + Δ)
        exact mul_nonneg (Nat.cast_nonneg i) (by linarith)
      · show ((scheduleWindows n video dpiOpt delay).map Prod.fst).getD i 0
            < ((scheduleWindows n video dpiOpt delay).map Prod.snd).getD i 0
        rw [getD_map _ _ i hilen, getD_map _ _ i hilen, hgetD i hi2]
        show (i : ℚ) * (P + Δ) < (i : ℚ) * (P + Δ) + P
        linarith
    · intro i hi
      have hi2 : i + 1 < n := hi
      have hilen : i < (scheduleWindows n video dpiOpt delay).length := by omega
      have hilen2 : i + 1 < (scheduleWindows n video dpiOpt delay).length := by omega
      show ((scheduleWindows n video dpiOpt delay).map Prod.snd).getD i 0
          ≤ ((scheduleWindows n video dpiOpt delay).map Prod.fst).getD (i + 1) 0
      rw [getD_map _ _ i hilen, getD_map _ _ (i + 1) hilen2, hgetD i (by omega),
        hgetD (i + 1) (by omega)]
      show (i : ℚ) * (P + Δ) + P ≤ ((i + 1 : ℕ) : ℚ) * (P + Δ)
      push_cast
      nlinarith
    · show ((scheduleWindows n video dpiOpt delay).map Prod.snd).getLastD 0 ≤ video
      rw [getLastD_map _ _ hwsne]
      exact not_lt.mp hover

/-- Witness for C2 at a concrete input: the spec's scenario 4 (3 items, host 5, fixed
per-item duration 3, no delay), which triggers the rescale branch. -/
theorem C2_overlay_windows_witness :
    (1 ≤ 3 ∧ (0 : ℚ) < 5 ∧ (0 : ℚ) ≤ 0 ∧ ∀ d, (some (3 : ℚ)) = some d → 0 < d) ∧
      ∃ info, calculateTiming 3 5 (some 3) 0 = some info ∧ WindowsValid 5 info ∧
        (5 < naiveLastEnd 3 5 (some 3) 0 → info.endTimes.getLastD 0 = 5) :=
  ⟨⟨by norm_num, by norm_num, le_refl 0, by
      intro d hd
      injection hd with h1
      rw [← h1]
      norm_num⟩,
   C2_overlay_windows 3 5 (some 3) 0 (by norm_num) (by norm_num) (le_refl 0) (by
      intro d hd
      injection hd with h1
      rw [← h1]
      norm_num)⟩

/-- Claim C8 (amended): the scheduler is total (modelled exceptions surface as `none`), and
for every itemCount ≥ 1 with a positive host duration it returns a best-effort schedule, for
any optional per-item duration and any delay. For itemCount = 0, however, it returns `none` —
a reported failure, not a schedule with no windows (see the counterexample). -/
theorem C8_scheduler_total (n : ℕ) (video : ℚ) (dpiOpt : Option ℚ) (delay : ℚ)
    (hn : 1 ≤ n) (hvideo : 0 < video) :
    (calculateTiming n video dpiOpt delay).isSome = true := by
  rw [calculateTiming, if_neg (by omega : ¬ n = 0)]
  by_cases hover : video < naiveLastEnd n video dpiOpt delay
  · rw [if_pos hover, if_neg (by
      intro h0
      rw [h0] at hover
      linarith)]
    rfl
  · rw [if_neg hover]
    rfl

/-- Witness for C8 at a concrete input: 2 items, host duration 10, auto duration, delay 1. -/
theorem C8_scheduler_total_witness :
    (1 ≤ 2 ∧ (0 : ℚ) < 10) ∧ (calculateTiming 2 10 none 1).isSome = true :=
  ⟨⟨by norm_num, by norm_num⟩, C8_scheduler_total 2 10 none 1 (by norm_num) (by norm_num)⟩

/-- Counterexample to C8 as stated: for itemCount = 0 (host duration 8, delay 1) the scheduler
returns `none` — the Python code raises inside its `try` block and the handler returns None —
rather than yielding a schedule with no windows. -/
theorem C8_counterexample : calculateTiming 0 8 none 1 = none := by
  rw [calculateTiming, if_pos rfl]

/-! ## AnimationCurveBuilder (`processors/image_overlay.py`, `_build_animation_expressions`) -/

/-- The four slide animation styles. (`fade` has no position animation: its expression is the
constant centered position, and `random` resolves to one of the five per item.) -/
inductive SlideStyle
  | slideBottom
  | slideTop
  | slideLeft
  | slideRight

/-- Python `center_x = (video_width - img_width) // 2` (floor division). -/
def centerX (videoWidth imgWidth : ℤ) : ℤ := Int.fdiv (videoWidth - imgWidth) 2

/-- Python `center_y = (video_height - img_height) // 2` (floor division). -/
def centerY (videoHeight imgHeight : ℤ) : ℤ := Int.fdiv (videoHeight - imgHeight) 2

/-- The off-screen anchor of each slide style (image_overlay.py lines 474-528): the animated
coordinate sits 100 px beyond the frame edge (or beyond the image size on the negative side),
the other coordinate stays centered. -/
def offAnchor (s : SlideStyle) (videoWidth videoHeight imgWidth imgHeight : ℤ) : ℚ × ℚ :=
  match s with
  | .slideBottom => (((centerX videoWidth imgWidth : ℤ) : ℚ), (videoHeight : ℚ) + 100)
  | .slideTop => (((centerX videoWidth imgWidth : ℤ) : ℚ), -(imgHeight : ℚ) - 100)
  | .slideLeft => (-(imgWidth : ℚ) - 100, ((centerY videoHeight imgHeight : ℤ) : ℚ))
  | .slideRight => ((videoWidth : ℚ) + 100, ((centerY videoHeight imgHeight : ℤ) : ℚ))

/-- The centered anchor `(center_x, center_y)`. -/
def centerAnchor (videoWidth videoHeight imgWidth imgHeight : ℤ) : ℚ × ℚ :=
  (((centerX videoWidth imgWidth : ℤ) : ℚ), ((centerY videoHeight imgHeight : ℤ) : ℚ))

/-- The common shape of the generated piecewise position expression, in the orientation of the
`slide_bottom` branch: off-screen before `startT`, linear entry over `animDur`, held at the
centered coordinate until `exitT`, then linear exit (and, past `exitT + animDur`, the same
line continues beyond the off-screen anchor). -/
def slideCurve (off c startT animDur exitT : ℚ) (t : ℚ) : ℚ :=
  if t < startT then off
  else if t < startT + animDur then off - (off - c) * (t - startT) / animDur
  else if t < exitT then c
  else c + (off - c) * (t - exitT) / animDur

/-- `_build_animation_expressions`: the position-over-time function denoted by the generated
FFmpeg expression strings, one branch per style, transcribed literally. `startT`, `animDur`
and `exitT` are the `start_time`, `anim_duration` and `exit_start_time` arguments. -/
def animPosition (s : SlideStyle) (videoWidth videoHeight imgWidth imgHeight : ℤ)
    (startT animDur exitT : ℚ) (t : ℚ) : ℚ × ℚ :=
  let cx : ℚ := (centerX videoWidth imgWidth : ℤ)
  let cy : ℚ := (centerY videoHeight imgHeight : ℤ)
  match s with
  | .slideBottom =>
      let off : ℚ := (videoHeight : ℚ) + 100
      (cx,
       if t < startT then off
       else if t < startT + animDur then off - (off - cy) * (t - startT) / animDur
       else if t < exitT then cy
       else cy + (off - cy) * (t - exitT) / animDur)
  | .slideTop =>
      let off : ℚ := -(imgHeight : ℚ) - 100
      (cx,
       if t < startT then off
       else if t < startT + animDur then off + (cy - off) * (t - startT) / animDur
       else if t < exitT then cy
       else cy - (cy - off) * (t - exitT) / animDur)
  | .slideLeft =>
      let off : ℚ := -(imgWidth : ℚ) - 100
      ((if t < startT then off
        else if t < startT + animDur then off + (cx - off) * (t - startT) / animDur
        else if t < exitT then cx
        else cx - (cx - off) * (t - exitT) / animDur),
       cy)
  | .slideRight =>
      let off : ℚ := (videoWidth : ℚ) + 100
      ((if t < startT then off
        else if t < startT + animDur then off - (off - cx) * (t - startT) / animDur
        else if t < exitT then cx
        else cx + (off - cx) * (t - exitT) / animDur),
       cy)

/-- `anim_duration = min(animation_duration, actual_duration * 0.25)` (image_overlay.py,
`_build_filter_complex`). -/
def animDurationOf (configured actualDuration : ℚ) : ℚ :=
  min configured (actualDuration * (1/4))

/-- The position function of one overlay item as assembled by `_build_filter_complex`: the
animation duration is capped at 25% of the display window and the exit starts `animDur`
before `endT`. -/
def overlayPosition (s : SlideStyle) (videoWidth videoHeight imgWidth imgHeight : ℤ)
    (startT endT configuredAnim : ℚ) (t : ℚ) : ℚ × ℚ :=
  animPosition s videoWidth videoHeight imgWidth imgHeight startT
    (animDurationOf configuredAnim (endT - startT))
    (endT - animDurationOf configuredAnim (endT - startT)) t

theorem animPosition_slideBottom (videoWidth videoHeight imgWidth imgHeight : ℤ)
    (startT animDur exitT t : ℚ) :
    animPosition .slideBottom videoWidth videoHeight imgWidth imgHeight startT animDur exitT t
      = (((centerX videoWidth imgWidth : ℤ) : ℚ),
         slideCurve ((videoHeight : ℚ) + 100) ((centerY videoHeight imgHeight : ℤ) : ℚ)
           startT animDur exitT t) := rfl

theorem animPosition_slideTop (videoWidth videoHeight imgWidth imgHeight : ℤ)
    (startT animDur exitT t : ℚ) :
    animPosition .slideTop videoWidth videoHeight imgWidth imgHeight startT animDur exitT t
      = (((centerX videoWidth imgWidth : ℤ) : ℚ),
         slideCurve (-(imgHeight : ℚ) - 100) ((centerY videoHeight imgHeight : ℤ) : ℚ)
           startT animDur exitT t) := by
  simp only [animPosition, slideCurve, Prod.mk.injEq]
  refine ⟨trivial, ?_⟩
  split_ifs <;> ring

theorem animPosition_slideLeft (videoWidth videoHeight imgWidth imgHeight : ℤ)
    (startT animDur exitT t : ℚ) :
    animPosition .slideLeft videoWidth videoHeight imgWidth imgHeight startT animDur exitT t
      = (slideCurve (-(imgWidth : ℚ) - 100) ((centerX videoWidth imgWidth : ℤ) : ℚ)
           startT animDur exitT t,
         ((centerY videoHeight imgHeight : ℤ) : ℚ)) := by
  simp only [animPosition, slideCurve, Prod.mk.injEq]
  refine ⟨?_, trivial⟩
  split_ifs <;> ring

theorem animPosition_slideRight (videoWidth videoHeight imgWidth imgHeight : ℤ)
    (startT animDur exitT t : ℚ) :
    animPosition .slideRight videoWidth videoHeight imgWidth imgHeight startT animDur exitT t
      = (slideCurve ((videoWidth : ℚ) + 100) ((centerX videoWidth imgWidth : ℤ) : ℚ)
           startT animDur exitT t,
         ((centerY videoHeight imgHeight : ℤ) : ℚ)) := rfl

theorem slideCurve_before (off c startT animDur exitT t : ℚ) (h : t < startT) :
    slideCurve off c startT animDur exitT t = off := by
  rw [slideCurve, if_pos h]

theorem slideCurve_at_start (off c startT animDur exitT : ℚ) (ha : 0 < animDur) :
    slideCurve off c startT animDur exitT startT = off := by
  rw [slideCurve, if_neg (lt_irrefl startT), if_pos (by linarith : startT < startT + animDur),
    sub_self, mul_zero, zero_div, sub_zero]

theorem slideCurve_enter_end (off c startT animDur exitT : ℚ) (ha : 0 < animDur)
    (hse : startT + animDur < exitT) :
    slideCurve off c startT animDur exitT (startT + animDur) = c := by
  rw [slideCurve, if_neg (by linarith), if_neg (lt_irrefl (startT + animDur)), if_pos hse]

theorem slideCurve_exit_start (off c startT animDur exitT : ℚ) (ha : 0 < animDur)
    (hse : startT + animDur ≤ exitT) :
    slideCurve off c startT animDur exitT exitT = c := by
  rw [slideCurve, if_neg (by linarith), if_neg (by linarith), if_neg (lt_irrefl exitT),
    sub_self, mul_zero, zero_div, add_zero]

theorem slideCurve_exit_end (off c startT animDur exitT : ℚ) (ha : 0 < animDur)
    (hse : startT + animDur ≤ exitT) (t : ℚ) (ht : t = exitT + animDur) :
    slideCurve off c startT animDur exitT t = off := by
  subst ht
  rw [slideCurve, if_neg (by linarith), if_neg (by linarith), if_neg (by linarith)]
  have h1 : exitT + animDur - exitT = animDur := by ring
  rw [h1, mul_div_assoc, div_self (ne_of_gt ha), mul_one]
  ring

/-- Claim C4 (amended): for every slide style, with `animDuration = min(configuredAnimDuration,
windowDuration * 0.25)` and a positive configured duration, the position function equals the
off-screen anchor for every `t < start` and at `t = start` and `t = end` (the curve is
continuous across the phase boundaries), and equals the centered anchor at
`t = start + animDuration` and `t = end - animDuration`. For `t > end`, however, the position
does NOT equal the off-screen anchor: the exit line continues past it, and only the separate
enable gate hides the item (see the counterexample). -/
theorem C4_animation_boundaries (s : SlideStyle) (videoWidth videoHeight imgWidth imgHeight : ℤ)
    (startT endT configuredAnim : ℚ) (hlt : startT < endT) (hcfg : 0 < configuredAnim) :
    (∀ t, t < startT → overlayPosition s videoWidth videoHeight imgWidth imgHeight
        startT endT configuredAnim t
        = offAnchor s videoWidth videoHeight imgWidth imgHeight) ∧
    overlayPosition s videoWidth videoHeight imgWidth imgHeight startT endT configuredAnim startT
      = offAnchor s videoWidth videoHeight imgWidth imgHeight ∧
    overlayPosition s videoWidth videoHeight imgWidth imgHeight startT endT configuredAnim
        (startT + animDurationOf configuredAnim (endT - startT))
      = centerAnchor videoWidth videoHeight imgWidth imgHeight ∧
    overlayPosition s videoWidth videoHeight imgWidth imgHeight startT endT configuredAnim
        (endT - animDurationOf configuredAnim (endT - startT))
      = centerAnchor videoWidth videoHeight imgWidth imgHeight ∧
    overlayPosition s videoWidth videoHeight imgWidth imgHeight startT endT configuredAnim endT
      = offAnchor s videoWidth videoHeight imgWidth imgHeight := by
  have ha0 : 0 < animDurationOf configuredAnim (endT - startT) :=
    lt_min hcfg (by linarith)
  have ha4 : animDurationOf configuredAnim (endT - startT) ≤ (endT - startT) * (1/4) :=
    min_le_right _ _
  have h2a : startT + animDurationOf configuredAnim (endT - startT)
      < endT - animDurationOf configuredAnim (endT - startT) := by linarith
  have h2b : startT + animDurationOf configuredAnim (endT - startT)
      ≤ endT - animDurationOf configuredAnim (endT - startT) := le_of_lt h2a
  have hendT : endT = (endT - animDurationOf configuredAnim (endT - startT))
      + animDurationOf configuredAnim (endT - startT) := by ring
  cases s with
  | slideBottom =>
    refine ⟨fun t ht => ?_, ?_, ?_, ?_, ?_⟩ <;>
      simp only [overlayPosition, animPosition_slideBottom, offAnchor, centerAnchor,
        Prod.mk.injEq]
    · exact ⟨trivial, slideCurve_before _ _ _ _ _ _ ht⟩
    · exact ⟨trivial, slideCurve_at_start _ _ _ _ _ ha0⟩
    · exact ⟨trivial, slideCurve_enter_end _ _ _ _ _ ha0 h2a⟩
    · exact ⟨trivial, slideCurve_exit_start _ _ _ _ _ ha0 h2b⟩
    · exact ⟨trivial, slideCurve_exit_end _ _ _ _ _ ha0 h2b endT hendT⟩
  | slideTop =>
    refine ⟨fun t ht => ?_, ?_, ?_, ?_, ?_⟩ <;>
      simp only [overlayPosition, animPosition_slideTop, offAnchor, centerAnchor,
        Prod.mk.injEq]
    · exact ⟨trivial, slideCurve_before _ _ _ _ _ _ ht⟩
    · exact ⟨trivial, slideCurve_at_start _ _ _ _ _ ha0⟩
    · exact ⟨trivial, slideCurve_enter_end _ _ _ _ _ ha0 h2a⟩
    · exact ⟨trivial, slideCurve_exit_start _ _ _ _ _ ha0 h2b⟩
    · exact ⟨trivial, slideCurve_exit_end _ _ _ _ _ ha0 h2b endT hendT⟩
  | slideLeft =>
    refine ⟨fun t ht => ?_, ?_, ?_, ?_, ?_⟩ <;>
      simp only [overlayPosition, animPosition_slideLeft, offAnchor, centerAnchor,
        Prod.mk.injEq]
    · exact ⟨slideCurve_before _ _ _ _ _ _ ht, trivial⟩
    · exact ⟨slideCurve_at_start _ _ _ _ _ ha0, trivial⟩
    · exact ⟨slideCurve_enter_end _ _ _ _ _ ha0 h2a, trivial⟩
    · exact ⟨slideCurve_exit_start _ _ _ _ _ ha0 h2b, trivial⟩
    · exact ⟨slideCurve_exit_end _ _ _ _ _ ha0 h2b endT hendT, trivial⟩
  | slideRight =>
    refine ⟨fun t ht => ?_, ?_, ?_, ?_, ?_⟩ <;>
      simp only [overlayPosition, animPosition_slideRight, offAnchor, centerAnchor,
        Prod.mk.injEq]
    · exact ⟨slideCurve_before _ _ _ _ _ _ ht, trivial⟩
    · exact ⟨slideCurve_at_start _ _ _ _ _ ha0, trivial⟩
    · exact ⟨slideCurve_enter_end _ _ _ _ _ ha0 h2a, trivial⟩
    · exact ⟨slideCurve_exit_start _ _ _ _ _ ha0 h2b, trivial⟩
    · exact ⟨slideCurve_exit_end _ _ _ _ _ ha0 h2b endT hendT, trivial⟩

/-- Witness for C4 at a concrete input: slide_bottom on a 1080x1920 frame with a 400x200
image, window [0, 4], configured animation duration 1. -/
theorem C4_animation_boundaries_witness :
    ((0 : ℚ) < 4 ∧ (0 : ℚ) < 1) ∧
      ((∀ t, t < (0 : ℚ) → overlayPosition .slideBottom 1080 1920 400 200 0 4 1 t
          = offAnchor .slideBottom 1080 1920 400 200) ∧
        overlayPosition .slideBottom 1080 1920 400 200 0 4 1 0
          = offAnchor .slideBottom 1080 1920 400 200 ∧
        overlayPosition .slideBottom 1080 1920 400 200 0 4 1 (0 + animDurationOf 1 (4 - 0))
          = centerAnchor 1080 1920 400 200 ∧
        overlayPosition .slideBottom 1080 1920 400 200 0 4 1 (4 - animDurationOf 1 (4 - 0))
          = centerAnchor 1080 1920 400 200 ∧
        overlayPosition .slideBottom 1080 1920 400 200 0 4 1 4
          = offAnchor .slideBottom 1080 1920 400 200) :=
  ⟨⟨by norm_num, by norm_num⟩,
   C4_animation_boundaries .slideBottom 1080 1920 400 200 0 4 1 (by norm_num) (by norm_num)⟩

/-- Counterexample to C4 as stated: same concrete setup (slide_bottom, frame 1080x1920, image
400x200, window [0, 4], animDuration 1, exit starts at 3). At t = 5 > end the generated
expression yields y = 860 + (2020 - 860) * (5 - 3) / 1 = 3180, past the off-screen anchor
y = 2020 — the position keeps moving instead of holding the anchor. -/
theorem C4_counterexample :
    overlayPosition .slideBottom 1080 1920 400 200 0 4 1 5 = (340, 3180) ∧
      offAnchor .slideBottom 1080 1920 400 200 = (340, 2020) ∧
      ((340 : ℚ), (3180 : ℚ)) ≠ ((340 : ℚ), (2020 : ℚ)) := by
  refine ⟨?_, ?_, ?_⟩
  · norm_num [overlayPosition, animPosition, animDurationOf, centerX, centerY, Int.fdiv]
  · norm_num [offAnchor, centerX, Int.fdiv]
  · intro hcontra
    have hsnd := congrArg Prod.snd hcontra
    norm_num at hsnd

/-! ## TextLayoutEngine (`processors/text_overlay.py`) -/

/-- `TextOverlayProcessor._calculate_font_size` (text_overlay.py lines 139-169); only the
character count of the text is used. The `TEXT_OVERLAY_MIN_FONT_SIZE` and
`TEXT_OVERLAY_MAX_FONT_SIZE` attributes are referenced by the code but absent from config.py,
so the configured bounds are taken as parameters (spec §6 lists them as configuration). -/
def calculateFontSize (charCount : ℕ) (videoWidth : ℤ) (minFontSize maxFontSize : ℤ) : ℤ :=
  if charCount = 0 then maxFontSize
  else
    max minFontSize
      (min (pyInt (((videoWidth : ℚ) * (85/100)) / ((charCount : ℚ) * (6/10)))) maxFontSize)

/-- `TextOverlayProcessor._calculate_box_dimensions` (text_overlay.py lines 171-193):
`box_width = int(len(text) * font_size * 0.6) + padding * 2` and
`box_height = int(font_size * 1.5) + padding * 2`; the `TEXT_OVERLAY_PADDING` configuration is
likewise a parameter. -/
def calculateBoxDimensions (charCount : ℕ) (fontSize : ℤ) (padding : ℤ) : ℤ × ℤ :=
  (pyInt ((charCount : ℚ) * (fontSize : ℚ) * (6/10)) + padding * 2,
   pyInt ((fontSize : ℚ) * (3/2)) + padding * 2)

theorem pyInt_nonneg {q : ℚ} (h : 0 ≤ q) : 0 ≤ pyInt q := by
  rw [pyInt, if_pos h]
  exact Int.floor_nonneg.mpr h

theorem le_pyInt {n : ℤ} {q : ℚ} (h0 : 0 ≤ q) (h : (n : ℚ) ≤ q) : n ≤ pyInt q := by
  rw [pyInt, if_pos h0]
  exact Int.le_floor.mpr h

/-- Claim C10: for the empty string (character count 0) the font-size calculation returns
exactly the configured maximum font size, for every frame width; the zero-length guard
returns before the division, so nothing divides by zero or raises. -/
theorem C10_empty_text (videoWidth : ℤ) (minFontSize maxFontSize : ℤ) :
    calculateFontSize 0 videoWidth minFontSize maxFontSize = maxFontSize := by
  rw [calculateFontSize, if_pos rfl]

/-- Claim C5 (amended): the font size always lies within the configured
`[minFontSize, maxFontSize]` bounds (for ordered bounds), and boxWidth and boxHeight are
positive (for a minimum font size ≥ 1 and padding ≥ 1) — but they are NOT always even
integers: the text-overlay code applies no even-rounding to the box (see the
counterexample). -/
theorem C5_text_layout (charCount : ℕ) (videoWidth : ℤ) (minFontSize maxFontSize padding : ℤ)
    (hmin : 1 ≤ minFontSize) (hle : minFontSize ≤ maxFontSize) (hpad : 1 ≤ padding) :
    (minFontSize ≤ calculateFontSize charCount videoWidth minFontSize maxFontSize ∧
      calculateFontSize charCount videoWidth minFontSize maxFontSize ≤ maxFontSize) ∧
    0 < (calculateBoxDimensions charCount
        (calculateFontSize charCount videoWidth minFontSize maxFontSize) padding).1 ∧
    0 < (calculateBoxDimensions charCount
        (calculateFontSize charCount videoWidth minFontSize maxFontSize) padding).2 := by
  have hfs : minFontSize ≤ calculateFontSize charCount videoWidth minFontSize maxFontSize ∧
      calculateFontSize charCount videoWidth minFontSize maxFontSize ≤ maxFontSize := by
    rw [calculateFontSize]
    by_cases h : charCount = 0
    · rw [if_pos h]
      exact ⟨hle, le_refl maxFontSize⟩
    · rw [if_neg h]
      exact ⟨le_max_left _ _, max_le hle (min_le_right _ _)⟩
  have hfs1 : 1 ≤ calculateFontSize charCount videoWidth minFontSize maxFontSize :=
    le_trans hmin hfs.1
  have hfsq : (1 : ℚ) ≤ ((calculateFontSize charCount videoWidth minFontSize maxFontSize : ℤ) : ℚ) := by
    exact_mod_cast hfs1
  refine ⟨hfs, ?_, ?_⟩
  · show 0 < pyInt ((charCount : ℚ) *
        ((calculateFontSize charCount videoWidth minFontSize maxFontSize : ℤ) : ℚ) * (6/10))
      + padding * 2
    have h1 : 0 ≤ pyInt ((charCount : ℚ) *
        ((calculateFontSize charCount videoWidth minFontSize maxFontSize : ℤ) : ℚ) * (6/10)) := by
      refine pyInt_nonneg ?_
      have hc : (0 : ℚ) ≤ (charCount : ℚ) := Nat.cast_nonneg charCount
      nlinarith
    linarith
  · show 0 < pyInt (((calculateFontSize charCount videoWidth minFontSize maxFontSize : ℤ) : ℚ)
        * (3/2)) + padding * 2
    have h1 : (1 : ℤ) ≤ pyInt (((calculateFontSize charCount videoWidth minFontSize
        maxFontSize : ℤ) : ℚ) * (3/2)) := by
      refine le_pyInt (by nlinarith) ?_
      push_cast
      nlinarith
    linarith

/-- Witness for C5 at a concrete input: the spec's scenario 5 (text length 20, frame width
1080, bounds [24, 80]) with padding 10. -/
theorem C5_text_layout_witness :
    ((1 : ℤ) ≤ 24 ∧ (24 : ℤ) ≤ 80 ∧ (1 : ℤ) ≤ 10) ∧
      ((24 ≤ calculateFontSize 20 1080 24 80 ∧ calculateFontSize 20 1080 24 80 ≤ 80) ∧
        0 < (calculateBoxDimensions 20 (calculateFontSize 20 1080 24 80) 10).1 ∧
        0 < (calculateBoxDimensions 20 (calculateFontSize 20 1080 24 80) 10).2) :=
  ⟨⟨by norm_num, by norm_num, by norm_num⟩,
   C5_text_layout 20 1080 24 80 10 (by norm_num) (by norm_num) (by norm_num)⟩

/-- Counterexample to C5 as stated: for a 3-character text on a 54 px wide frame with bounds
[24, 80] and padding 10, the font size is 25 and the box width is
`int(3 * 25 * 0.6) + 20 = 65`, an odd number — the box dimensions are not always even. -/
theorem C5_counterexample :
    calculateFontSize 3 54 24 80 = 25 ∧
      (calculateBoxDimensions 3 (calculateFontSize 3 54 24 80) 10).1 = 65 ∧
      ¬ (2 ∣ (65 : ℤ)) := by
  have hfs : calculateFontSize 3 54 24 80 = 25 := by
    norm_num [calculateFontSize, pyInt]
  refine ⟨hfs, ?_, by norm_num⟩
  rw [hfs]
  norm_num [calculateBoxDimensions, pyInt]

/-! ## CutPointSource hybrid merge (`processors/audio_analyzer.py`, `analyze_hybrid`) -/

/-- The proximity scan of `analyze_hybrid` (audio_analyzer.py lines 219-227): walk the sorted
(time, weight) pairs keeping a time only when it exceeds the last kept time by more than
0.1 s; `last_time` starts at -1.0, and the weight of a pair is never consulted. -/
def mergeScan : ℚ → List (ℚ × ℚ) → List ℚ
  | _, [] => []
  | lastTime, (t, _) :: rest =>
      if 1/10 < t - lastTime then t :: mergeScan t rest else mergeScan lastTime rest

/-- `analyze_hybrid` merge stage: tag beats and vocals with their weights, sort ascending by
time (Python's `list.sort(key=lambda x: x[0])`, modelled by insertion sort on the time key),
then run the proximity scan with `last_time = -1.0`. -/
def analyzeHybrid (beatTimes vocalTimes : List ℚ) (beatWeight vocalWeight : ℚ) : List ℚ :=
  mergeScan (-1)
    ((beatTimes.map (fun t => (t, beatWeight))
        ++ vocalTimes.map (fun t => (t, vocalWeight))).insertionSort
      (fun a b => a.1 ≤ b.1))

/-- Reference proximity filter, from the spec's words: scan in order, keeping a point only if
its time exceeds the previously kept point's time by more than 0.1 s (the first point, with no
previously kept point, is kept). -/
def refScanAux : ℚ → List ℚ → List ℚ
  | _, [] => []
  | lastKept, t :: ts =>
      if 1/10 < t - lastKept then t :: refScanAux t ts else refScanAux lastKept ts

/-- Reference proximity filter entry point (spec's words, first point kept). -/
def refProximityFilter : List ℚ → List ℚ
  | [] => []
  | t :: ts => t :: refScanAux t ts

/-- Reference hybrid merge, from the spec's words: concatenate the beat and vocal timestamps,
sort ascending by time, then apply the proximity filter. -/
def refHybridMerge (beatTimes vocalTimes : List ℚ) : List ℚ :=
  refProximityFilter ((beatTimes ++ vocalTimes).insertionSort (fun a b : ℚ => a ≤ b))

theorem mergeScan_eq_scan_fst (lastTime : ℚ) (pairs : List (ℚ × ℚ)) :
    mergeScan lastTime pairs = refScanAux lastTime (pairs.map Prod.fst) := by
  induction pairs generalizing lastTime with
  | nil => rfl
  | cons p rest ih =>
    obtain ⟨t, w⟩ := p
    rw [List.map_cons, mergeScan, refScanAux]
    by_cases h : 1/10 < t - lastTime
    · rw [if_pos h, if_pos h, ih]
    · rw [if_neg h, if_neg h, ih]

theorem map_fst_orderedInsert (p : ℚ × ℚ) (l : List (ℚ × ℚ)) :
    (List.orderedInsert (fun a b => a.1 ≤ b.1) p l).map Prod.fst
      = List.orderedInsert (fun a b : ℚ => a ≤ b) p.1 (l.map Prod.fst) := by
  induction l with
  | nil => rfl
  | cons q rest ih =>
    rw [List.map_cons, List.orderedInsert, List.orderedInsert]
    by_cases h : p.1 ≤ q.1
    · rw [if_pos h, if_pos h]
      rfl
    · rw [if_neg h, if_neg h, List.map_cons, ih]

theorem map_fst_insertionSort (l : List (ℚ × ℚ)) :
    (l.insertionSort (fun a b => a.1 ≤ b.1)).map Prod.fst
      = (l.map Prod.fst).insertionSort (fun a b : ℚ => a ≤ b) := by
  induction l with
  | nil => rfl
  | cons p rest ih =>
    rw [List.insertionSort, List.map_cons, List.insertionSort, ← ih, map_fst_orderedInsert]

/-- Claim C6: the hybrid merge equals the reference definition (concatenate, sort ascending by
time, keep a point only when it exceeds the previously kept one by more than 0.1 s), and the
output is identical for any two weight assignments — the weights never influence which points
survive. (The nonnegativity hypotheses reflect that detector timestamps are seconds ≥ 0; the
code's `last_time = -1.0` makes the first kept point unconditional exactly on such inputs.) -/
theorem C6_hybrid_merge (beatTimes vocalTimes : List ℚ) (bw vw bw2 vw2 : ℚ)
    (hb : ∀ t ∈ beatTimes, 0 ≤ t) (hv : ∀ t ∈ vocalTimes, 0 ≤ t) :
    analyzeHybrid beatTimes vocalTimes bw vw = refHybridMerge beatTimes vocalTimes ∧
      analyzeHybrid beatTimes vocalTimes bw vw = analyzeHybrid beatTimes vocalTimes bw2 vw2 := by
  have key : ∀ w1 w2 : ℚ, analyzeHybrid beatTimes vocalTimes w1 w2
      = refHybridMerge beatTimes vocalTimes := by
    intro w1 w2
    rw [analyzeHybrid, mergeScan_eq_scan_fst, map_fst_insertionSort, refHybridMerge]
    have hmaps : ((beatTimes.map (fun t => (t, w1))
        ++ vocalTimes.map (fun t => (t, w2))).map Prod.fst) = beatTimes ++ vocalTimes := by
      simp [List.map_map, Function.comp_def]
    rw [hmaps]
    cases hs : (beatTimes ++ vocalTimes).insertionSort (fun a b : ℚ => a ≤ b) with
    | nil => rfl
    | cons t ts =>
      have ht : 0 ≤ t := by
        have hperm := List.perm_insertionSort (fun a b : ℚ => a ≤ b) (beatTimes ++ vocalTimes)
        have hmem : t ∈ (beatTimes ++ vocalTimes).insertionSort (fun a b : ℚ => a ≤ b) := by
          rw [hs]
          exact List.mem_cons_self t ts
        rcases List.mem_append.mp (hperm.mem_iff.mp hmem) with hmb | hmv
        · exact hb t hmb
        · exact hv t hmv
      rw [refProximityFilter, refScanAux, if_pos (by linarith : (1 : ℚ)/10 < t - (-1))]
  exact ⟨key bw vw, (key bw vw).trans (key bw2 vw2).symm⟩

/-- Witness for C6 at a concrete input: beats [0, 1], vocals [21/20], default weights 0.7/0.3
against alternative weights 1/2. -/
theorem C6_hybrid_merge_witness :
    ((∀ t ∈ [(0 : ℚ), 1], 0 ≤ t) ∧ (∀ t ∈ [(21 : ℚ)/20], 0 ≤ t)) ∧
      (analyzeHybrid [0, 1] [21/20] (7/10) (3/10) = refHybridMerge [0, 1] [21/20] ∧
        analyzeHybrid [0, 1] [21/20] (7/10) (3/10) = analyzeHybrid [0, 1] [21/20] 1 2) :=
  ⟨⟨by norm_num, by norm_num⟩,
   C6_hybrid_merge [0, 1] [21/20] (7/10) (3/10) 1 2 (by norm_num) (by norm_num)⟩

end ReelGen
